import Mathlib

/-!
Verification development for the autopilot-analysis experiment scripts
(`experiments/run_experiment.py` and `experiments/run_hpa_experiment.py`).

The definitions below are a shallow embedding of the metric-alignment and
CSV-export logic of the two scripts, of the scaling ramp of
`run_experiment.py`, and of the time-record bookkeeping of both scripts.
Sample timestamps are modelled as integer seconds (the scripts apply
`int(float(ts))` to every Prometheus timestamp before any use, and the
grid bounds are `int(...)` of the recorded unix times).
-/

set_option autoImplicit false

namespace Autopilot

/-! ### Python `range` (both scripts iterate over `range(a, b, s)`)

`range(s, e, st)` for `st > 0` has `max 0 (ceil ((e-s)/st))` elements
`s, s+st, ...`; for `st < 0` it has `max 0 (ceil ((s-e)/(-st)))` elements
`s, s+st, ...`; for `st = 0` Python raises (never reached by the claims
considered here, where the step is checked or assumed positive). -/

/-- Number of elements of Python `range(s, e, st)` for a positive step `st`:
zero when `e <= s`, otherwise `(e - s - 1) / st + 1` (integer division on a
nonnegative numerator, i.e. the ceiling of `(e-s)/st`). -/
def pyRangeLen (s e st : Int) : Nat :=
  if s < e then ((e - s - 1) / st).toNat + 1 else 0

/-- Python `range(s, e, st)` as a list of `Int`. -/
def pyRange (s e st : Int) : List Int :=
  if 0 < st then
    (List.range (pyRangeLen s e st)).map (fun i : Nat => s + (i : Int) * st)
  else if st < 0 then
    (List.range (pyRangeLen e s (-st))).map (fun i : Nat => s + (i : Int) * st)
  else []

/-! ### Character-level string utilities

Python string primitives used by the scripts (`endswith`, `[:-1]`,
`rstrip`, `int(...)`, `sorted(...)` on strings), modelled on the
character list of a `String`.  Python compares strings lexicographically
by code point, which is `charListLeb` below. -/

/-- Python `s.endswith(c)` for a single-character suffix. -/
def endsWithChar (s : String) (c : Char) : Bool :=
  match s.data.getLast? with
  | some c' => c' == c
  | none => false

/-- Numeric value of a decimal digit character, if it is one. -/
def digitVal? (c : Char) : Option Nat :=
  if 48 ≤ c.toNat ∧ c.toNat ≤ 57 then some (c.toNat - 48) else none

/-- ASCII whitespace accepted (and stripped) around the number by
Python `int(str)`: space, tab, newline, carriage return, vertical tab,
form feed. -/
def isPyWS (c : Char) : Bool :=
  c == ' ' || c == '\t' || c == '\n' || c == '\r' || c == '\x0b' || c == '\x0c'

/-- Strip leading and trailing Python whitespace from a character list. -/
def stripPyWS (cs : List Char) : List Char :=
  ((cs.dropWhile isPyWS).reverse.dropWhile isPyWS).reverse

/-- Digit run continuation of Python `int(str)` after the first digit:
further digits, with single underscores allowed strictly between two
digits (`1_0` parses, `1__0`, `1_` do not). -/
def digitsValU : Nat → List Char → Option Nat
  | acc, [] => some acc
  | acc, '_' :: c :: rest =>
    match digitVal? c with
    | some d => digitsValU (acc * 10 + d) rest
    | none => none
  | acc, c :: rest =>
    match digitVal? c with
    | some d => digitsValU (acc * 10 + d) rest
    | none => none

/-- A nonempty digit run starting with a digit (no leading underscore). -/
def parseDigits : List Char → Option Nat
  | [] => none
  | c :: rest =>
    match digitVal? c with
    | some d => digitsValU d rest
    | none => none

/-- Python `int(str)` on ASCII strings: surrounding ASCII whitespace is
stripped, then an optional single sign, then decimal digits with single
underscores between digits.  (Python additionally accepts non-ASCII
Unicode whitespace and Unicode decimal digits; those are outside the
modelled ASCII domain, and theorems quantifying over interval strings
carry an ASCII-only hypothesis accordingly.) -/
def parseInt? (cs : List Char) : Option Int :=
  match stripPyWS cs with
  | '-' :: rest => (parseDigits rest).map (fun n => -(n : Int))
  | '+' :: rest => (parseDigits rest).map (fun n => (n : Int))
  | core => (parseDigits core).map (fun n => (n : Int))

/-- Lexicographic code-point comparison of character lists (Python `<=`
on strings). -/
def charListLeb : List Char → List Char → Bool
  | [], _ => true
  | _ :: _, [] => false
  | a :: as, b :: bs =>
    if a.toNat < b.toNat then true
    else if b.toNat < a.toNat then false
    else charListLeb as bs

/-- Python `<=` on strings, as a proposition. -/
def strLe (a b : String) : Prop := charListLeb a.data b.data = true

instance : DecidableRel strLe := fun a b =>
  inferInstanceAs (Decidable (charListLeb a.data b.data = true))

/-! ### Prometheus series and the timestamp-keyed accumulator dict

`metrics_by_ts` in both scripts is `dict[int, dict[str, str]]`: for each
observed (integer) timestamp, a field-name -> string-value record. -/

/-- One labelled series returned by `query_prometheus_range`: the `metric`
label set and the `values` list of `(timestamp, value)` samples. -/
structure PromSeries where
  labels : List (String × String)
  values : List (Int × String)
  deriving DecidableEq

/-- The inner `dict[str, str]` of `metrics_by_ts`. -/
abbrev FieldMap := List (String × String)

/-- The outer `dict[int, dict[str, str]]` (`metrics_by_ts`). -/
abbrev TsDict := List (Int × FieldMap)

/-- Python `d.get(k)` on a `str`-keyed dict. -/
def getVal : FieldMap → String → Option String
  | [], _ => none
  | (k', v) :: rest, k => if k' = k then some v else getVal rest k

/-- Python `d[k] = v` on a `str`-keyed dict: overwrite in place, else append. -/
def setVal : FieldMap → String → String → FieldMap
  | [], k, v => [(k, v)]
  | (k', v') :: rest, k, v =>
    if k' = k then (k, v) :: rest else (k', v') :: setVal rest k v

/-- Python `metrics_by_ts.get(ts)`. -/
def getTsMap : TsDict → Int → Option FieldMap
  | [], _ => none
  | (t', m) :: rest, t => if t' = t then some m else getTsMap rest t

/-- The body `if ts not in metrics_by_ts: metrics_by_ts[ts] = {};
metrics_by_ts[ts][k] = v` executed by every sample-processing loop. -/
def setField : TsDict → Int → String → String → TsDict
  | [], t, k, v => [(t, [(k, v)])]
  | (t', m) :: rest, t, k, v =>
    if t' = t then (t, setVal m k v) :: rest
    else (t', m) :: setField rest t k v

/-- `metrics_by_ts.get(closest_ts, {})`. -/
def lookupTs (d : TsDict) (t : Int) : FieldMap := (getTsMap d t).getD []

/-- `sorted(metrics_by_ts.keys())` (`available_timestamps`). -/
def sortedKeys (d : TsDict) : List Int :=
  List.insertionSort (· ≤ ·) (d.map Prod.fst)

/-! ### Nearest-timestamp selection

`min(available_timestamps, key=lambda ts: abs(ts - t), default=None)`:
Python `min` keeps the first element attaining the minimal key, i.e. it
replaces the current best only on a strictly smaller key. -/

/-- One step of Python `min(..., key=lambda ts: abs(ts - t))`. -/
def minStep (t : Int) (acc : Option Int) (ts : Int) : Option Int :=
  match acc with
  | none => some ts
  | some b => if |ts - t| < |b - t| then some ts else some b

/-- `min(l, key=lambda ts: abs(ts - t), default=None)`. -/
def minByAbsDist (l : List Int) (t : Int) : Option Int :=
  l.foldl (minStep t) none

/-- The `data_for_row` computation of `run_experiment.py` (lines 251-256):
the record at the merged nearest timestamp if its distance to the grid
point is strictly below the step, else the empty record. -/
def dataForRow (d : TsDict) (t step : Int) : FieldMap :=
  match minByAbsDist (sortedKeys d) t with
  | none => []
  | some c => if |c - t| < step then lookupTs d c else []

/-- The `data_row` computation of `run_hpa_experiment.py` (line 228).  Note
the Python guard is `if closest_ts and abs(closest_ts - ts_unix) < step`,
so a (truthy-falsy) nearest timestamp equal to `0` is treated as absent. -/
def dataForRowHpa (d : TsDict) (t step : Int) : FieldMap :=
  match minByAbsDist (sortedKeys d) t with
  | none => []
  | some c => if c ≠ 0 ∧ |c - t| < step then lookupTs d c else []

/-! ### Series processing -/

/-- The node-class label key used by both scripts. -/
def nodeTypeLabelName : String := "label_node_kubernetes_io_instance_type"

/-- Processing of a fixed-metric query result (`run_experiment.py` lines
202-207, and `process_series` of `run_hpa_experiment.py`): only `data[0]`
is read; all samples of the first returned series are written into the
dict under the destination field name. -/
def processFirstSeries (d : TsDict) (field : String) : List PromSeries → TsDict
  | [] => d
  | s :: _ => s.values.foldl (fun d tv => setField d tv.1 field tv.2) d

/-- The node class of a series in `run_experiment.py` (lines 212-214):
`series.get("metric", {}).get(label)` followed by `if not node_type:
continue`, so a missing label and an empty-string label value both lead
to the series being skipped. -/
def nodeTypeOfSeries (s : PromSeries) : Option String :=
  match getVal s.labels nodeTypeLabelName with
  | none => none
  | some nt => if nt = "" then none else some nt

/-- Python `set.add` on a dedup list model of the `node_types` set. -/
def insertIfAbsent (l : List String) (x : String) : List String :=
  if x ∈ l then l else l ++ [x]

/-- One `node_types.add(...)` step of the node loop of
`run_experiment.py` (skipped series add nothing). -/
def addNodeType (nts : List String) (s : PromSeries) : List String :=
  match nodeTypeOfSeries s with
  | none => nts
  | some nt => insertIfAbsent nts nt

/-- The `node_types` set accumulated by the node loop of
`run_experiment.py`. -/
def experimentNodeTypes (nodesData : List PromSeries) : List String :=
  nodesData.foldl addNodeType []

/-- The samples a node-inventory series contributes to `metrics_by_ts` in
`run_experiment.py`: nothing when the series is skipped. -/
def applyNodeSeries (d : TsDict) (s : PromSeries) : TsDict :=
  match nodeTypeOfSeries s with
  | none => d
  | some nt => s.values.foldl (fun d tv => setField d tv.1 nt tv.2) d

/-- `sorted_node_types`: the dynamically discovered CSV columns of
`run_experiment.py` (`sorted(list(node_types))`). -/
def experimentCols (nodesData : List PromSeries) : List String :=
  List.insertionSort strLe (experimentNodeTypes nodesData)

/-- `metrics_by_ts` after both processing loops of `run_experiment.py`. -/
def buildDictExperiment (replicasData nodesData : List PromSeries) : TsDict :=
  nodesData.foldl applyNodeSeries
    (processFirstSeries [] "deployment_spec_replicas" replicasData)

/-! ### Sampling-interval parsing -/

/-- Sampling-interval parsing of `run_experiment.py` (lines 226-231):
`step_seconds = 15`, then `int(s[:-1])` (times 60 for an `m` suffix) under
`try`, keeping 15 and printing a warning on any parse failure. -/
def parseSamplingIntervalExperiment (s : String) : Int :=
  if endsWithChar s 's' then (parseInt? s.data.dropLast).getD 15
  else if endsWithChar s 'm' then ((parseInt? s.data.dropLast).map (· * 60)).getD 15
  else 15

/-- Python `s.rstrip('sm')`: strip any trailing run of `s`/`m` characters. -/
def rstripSM (s : String) : List Char :=
  (s.data.reverse.dropWhile (fun c => c == 's' || c == 'm')).reverse

/-- Sampling-interval parsing of `run_hpa_experiment.py` (lines 221-223):
`int(s.rstrip('sm')) * (60 if s.endswith('m') else 1)` under a bare
`try/except: pass`, keeping the preset 15 on failure. -/
def parseSamplingIntervalHpa (s : String) : Int :=
  match parseInt? (rstripSM s) with
  | some n => n * (if endsWithChar s 'm' then 60 else 1)
  | none => 15

/-! ### CSV rows -/

/-- One data row written by `run_experiment.py` (lines 259-267):
`deployment_spec_replicas` is `data_for_row.get(...)` (an `Option`; `none`
is written as an empty cell by `csv.DictWriter` with `restval=None`), and
each node column gets `data_for_row.get(node_type, '0')`. -/
structure CsvRow where
  timestamp_unix : Int
  spec_replicas : Option String
  nodeCols : List (String × String)
  deriving DecidableEq

/-- Builds the `row_to_write` of `run_experiment.py` at grid point `t`. -/
def mkCsvRow (d : TsDict) (cols : List String) (t step : Int) : CsvRow :=
  let m := dataForRow d t step
  { timestamp_unix := t
    spec_replicas := getVal m "deployment_spec_replicas"
    nodeCols := cols.map (fun nt => (nt, (getVal m nt).getD "0")) }

/-- The data rows exported by `run_experiment.py`: `none` when
`metrics_by_ts` is empty (lines 222-223: no CSV is generated at all);
otherwise one row per grid point of `range(qs, qe + 1, step)`, the grid
loop being guarded by `if step_seconds > 0` (line 246). -/
def exportExperiment (qs qe : Int) (si : String)
    (replicasData nodesData : List PromSeries) : Option (List CsvRow) :=
  let d := buildDictExperiment replicasData nodesData
  if d = [] then none
  else
    let step := parseSamplingIntervalExperiment si
    let cols := experimentCols nodesData
    some (if 0 < step then
            (pyRange qs (qe + 1) step).map (fun t => mkCsvRow d cols t step)
          else [])

/-- The node class of a series in `run_hpa_experiment.py` (line 205):
`series.get("metric", {}).get(label, "unknown_node")` — a series lacking
the label is attributed to a synthetic `"unknown_node"` column instead of
being skipped. -/
def hpaNodeTypeOfSeries (s : PromSeries) : String :=
  (getVal s.labels nodeTypeLabelName).getD "unknown_node"

/-- The `node_types` set accumulated by the node loop of
`run_hpa_experiment.py` (every series contributes a class). -/
def hpaNodeTypes (nodesData : List PromSeries) : List String :=
  nodesData.foldl (fun nts s => insertIfAbsent nts (hpaNodeTypeOfSeries s)) []

/-- The samples a node-inventory series contributes to `metrics_by_ts` in
`run_hpa_experiment.py` (every series contributes, under its node class or
`"unknown_node"`). -/
def applyHpaNodeSeries (d : TsDict) (s : PromSeries) : TsDict :=
  s.values.foldl (fun d tv => setField d tv.1 (hpaNodeTypeOfSeries s) tv.2) d

/-- `metrics_by_ts` after the four processing loops of
`run_hpa_experiment.py` (lines 199-210). -/
def buildDictHpa (specData readyData hpaData nodesData : List PromSeries) : TsDict :=
  nodesData.foldl applyHpaNodeSeries
    (processFirstSeries
      (processFirstSeries
        (processFirstSeries [] "deployment_spec_replicas" specData)
        "deployment_ready_replicas" readyData)
      "hpa_current_replicas" hpaData)

/-- The fixed metric columns of `run_hpa_experiment.py` (`fieldnames[2:]`
before the node columns). -/
def hpaFixedFields : List String :=
  ["deployment_spec_replicas", "deployment_ready_replicas", "hpa_current_replicas"]

/-- One data row written by `run_hpa_experiment.py`. -/
structure HpaRow where
  timestamp_unix : Int
  fields : List (String × String)
  deriving DecidableEq

/-- `for field in fieldnames[2:]: row_to_write[field] =
data_row.get(field, '0')` (lines 231-232): every declared column defaults
uniformly to `'0'`. -/
def hpaRowFields (tailFields : List String) (m : FieldMap) : List (String × String) :=
  tailFields.map (fun f => (f, (getVal m f).getD "0"))

/-- Builds the `row_to_write` of `run_hpa_experiment.py` at grid point `t`. -/
def mkHpaRow (d : TsDict) (tailFields : List String) (t step : Int) : HpaRow :=
  { timestamp_unix := t
    fields := hpaRowFields tailFields (dataForRowHpa d t step) }

/-- The data rows exported by `run_hpa_experiment.py`: `none` when
`metrics_by_ts` is empty (lines 235-236), otherwise one row per grid
point.  (For `step = 0` Python `range` would raise; `pyRange` returns `[]`
there, a case outside every claim considered.) -/
def exportHpa (qs qe : Int) (si : String)
    (specData readyData hpaData nodesData : List PromSeries) : Option (List HpaRow) :=
  let d := buildDictHpa specData readyData hpaData nodesData
  if d = [] then none
  else
    let cols := List.insertionSort strLe (hpaNodeTypes nodesData)
    let step := parseSamplingIntervalHpa si
    some ((pyRange qs (qe + 1) step).map
      (fun t => mkHpaRow d (hpaFixedFields ++ cols) t step))

/-! ### The scaling ramp of `run_experiment.py` (lines 131-149) -/

/-- Scale-up targets: `range(2, max_replicas + 1, step_size)`. -/
def scaleUpTargets (maxR step : Int) : List Int :=
  pyRange 2 (maxR + 1) step

/-- Scale-down targets: `range(max_replicas - step_size, 1, -step_size)`. -/
def scaleDownTargets (maxR step : Int) : List Int :=
  pyRange (maxR - step) 1 (-step)

/-- The full ordered sequence of replica targets issued by the ramp. -/
def scalingPlan (maxR step : Int) : List Int :=
  scaleUpTargets maxR step ++ scaleDownTargets maxR step

/-! ### Time-record bookkeeping

Both drivers are modelled as the ordered trace of their observable events:
writes to the times file (with the open mode) and executed phases.  A
phase is an external side-effecting step (`kubectl`/locust call, wait,
...) that either completes (`true`) or raises (`false`); execution stops
at the first raise.  In `run_experiment.py` the start lines are written
(mode `"w"`) before the `try` block, the end lines are appended (mode
`"a"`) in the `finally` block, which Python runs exactly once on every
exit path, the `except Exception` clause having swallowed any body
exception.  In `run_hpa_experiment.py` no write happens before the `try`
block; the single write (mode `"w"`, both lines) happens in `finally`. -/

/-- Mode of an `open(times_file, mode)` call. -/
inductive WMode where
  | w
  | a
  deriving DecidableEq

/-- An observable event of a driver run: a times-file write (the entries
are `KEY=VALUE` lines, values being the instants recorded), or an executed
phase with its outcome. -/
inductive REvent where
  | twrite (mode : WMode) (entries : List (String × Int))
  | phase (idx : Nat) (ok : Bool)
  deriving DecidableEq

/-- Helper naming the times-file writes within a trace (used to state that
a trace contains no write before a point, or only a given write). -/
def isTWrite : REvent → Bool
  | .twrite _ _ => true
  | .phase _ _ => false

/-- Phases executed in order, stopping at the first failure (the raise
aborts the remaining body). -/
def phaseEvents : Nat → List Bool → List REvent
  | _, [] => []
  | i, b :: rest => .phase i b :: (if b then phaseEvents (i + 1) rest else [])

/-- The two start lines written by `run_experiment.py` (lines 109-111). -/
def startEntries (t0 : Int) : List (String × Int) :=
  [("START_TIME_ISO", t0), ("START_TIME_UNIX", t0)]

/-- The two end lines appended by `run_experiment.py` (lines 162-164). -/
def endEntries (tEnd : Int) : List (String × Int) :=
  [("END_TIME_ISO", tEnd), ("END_TIME_UNIX", tEnd)]

/-- The single write of `run_hpa_experiment.py` (lines 161-163). -/
def hpaEntries (t0 tEnd : Int) : List (String × Int) :=
  [("START_TIME_UNIX", t0), ("END_TIME_UNIX", tEnd)]

/-- Event trace of `run_experiment.py`: start write, phases until the
first failure, end write (in `finally`, hence unconditional).  `t0` is the
instant taken before the write, `tEnd` the instant taken on entry of
`finally`, i.e. at the failure when a phase raised. -/
def runExperimentEvents (ps : List Bool) (t0 tEnd : Int) : List REvent :=
  .twrite .w (startEntries t0) ::
    (phaseEvents 0 ps ++ [.twrite .a (endEntries tEnd)])

/-- Event trace of `run_hpa_experiment.py`: phases until the first
failure, then the single times-file write in `finally` (cleanup and export
follow it and never touch the times file). -/
def runHpaEvents (ps : List Bool) (t0 tEnd : Int) : List REvent :=
  phaseEvents 0 ps ++ [.twrite .w (hpaEntries t0 tEnd)]

/-- Effect of one event on the times-file content: mode `w` truncates and
rewrites, mode `a` appends, phases leave the file alone. -/
def contentStep (acc : List (String × Int)) : REvent → List (String × Int)
  | .twrite .w ls => ls
  | .twrite .a ls => acc ++ ls
  | .phase _ _ => acc

/-- Final content of the times file after a trace. -/
def timesFileContent (evs : List REvent) : List (String × Int) :=
  evs.foldl contentStep []

/-! ### Helper lemmas -/

theorem phaseEvents_all_phase :
    ∀ (ps : List Bool) (i : Nat) (e : REvent),
      e ∈ phaseEvents i ps → ∃ j b, e = .phase j b := by
  intro ps
  induction ps with
  | nil => intro i e h; simp [phaseEvents] at h
  | cons b rest ih =>
    intro i e h
    simp only [phaseEvents, List.mem_cons] at h
    rcases h with h | h
    · exact ⟨i, b, h⟩
    · cases b with
      | false => simp at h
      | true => exact ih (i + 1) e (by simpa using h)

theorem foldl_contentStep_phaseEvents :
    ∀ (ps : List Bool) (i : Nat) (acc : List (String × Int)),
      (phaseEvents i ps).foldl contentStep acc = acc := by
  intro ps
  induction ps with
  | nil => intro i acc; simp [phaseEvents]
  | cons b rest ih =>
    intro i acc
    cases b with
    | false => simp [phaseEvents, contentStep]
    | true => simp [phaseEvents, contentStep, ih]

theorem timesFileContent_runExperiment (ps : List Bool) (t0 tEnd : Int) :
    timesFileContent (runExperimentEvents ps t0 tEnd) =
      startEntries t0 ++ endEntries tEnd := by
  unfold timesFileContent runExperimentEvents
  rw [List.foldl_cons, List.foldl_append]
  rw [show contentStep [] (.twrite .w (startEntries t0)) = startEntries t0 from rfl]
  rw [foldl_contentStep_phaseEvents]
  rfl

theorem timesFileContent_runHpa (ps : List Bool) (t0 tEnd : Int) :
    timesFileContent (runHpaEvents ps t0 tEnd) = hpaEntries t0 tEnd := by
  unfold timesFileContent runHpaEvents
  rw [List.foldl_append, foldl_contentStep_phaseEvents]
  rfl

theorem phaseEvents_firstFail :
    ∀ (ps : List Bool) (i : Nat), false ∈ ps →
      ∃ k, ps[k]? = some false ∧ (∀ j, j < k → ps[j]? = some true) ∧
        phaseEvents i ps =
          ((List.range k).map (fun j => .phase (i + j) true)) ++
            [.phase (i + k) false] := by
  intro ps
  induction ps with
  | nil => intro i h; simp at h
  | cons b rest ih =>
    intro i hmem
    cases b with
    | false =>
      refine ⟨0, by simp, by simp, ?_⟩
      simp [phaseEvents]
    | true =>
      have hrest : false ∈ rest := by simpa using hmem
      obtain ⟨k, h1, h2, h3⟩ := ih (i + 1) hrest
      refine ⟨k + 1, by simpa using h1, ?_, ?_⟩
      · intro j hj
        cases j with
        | zero => simp
        | succ j' => simpa using h2 j' (by omega)
      · rw [show phaseEvents i (true :: rest) = .phase i true :: phaseEvents (i + 1) rest
            from by simp [phaseEvents]]
        rw [h3, List.range_succ_eq_map, List.map_cons, List.map_map]
        simp only [Nat.add_zero, List.cons_append]
        congr 2
        · apply List.map_congr_left
          intro x _
          simp only [Function.comp_apply, REvent.phase.injEq, and_true]
          omega
        · congr 2
          omega

/-! ### C10 -/

/-- C10: when a fixed-metric query returns more than one labelled series,
only the first series in the returned list contributes values to its
destination field; every later series is ignored (the processing result
does not depend on the tail of the list). -/
theorem C10_first_series_only (d : TsDict) (field : String)
    (s : PromSeries) (rest : List PromSeries) :
    processFirstSeries d field (s :: rest) = processFirstSeries d field [s] := rfl

/-! ### C8 -/

/-- The recognized sampling-interval grammar of the spec, relative to the
parser of `run_experiment.py`: a Python-parsable integer followed by an
`s` or `m` suffix. -/
def intervalGrammarOK (s : String) : Prop :=
  (endsWithChar s 's' = true ∧ (parseInt? s.data.dropLast).isSome = true) ∨
  (endsWithChar s 'm' = true ∧ (parseInt? s.data.dropLast).isSome = true)

instance (s : String) : Decidable (intervalGrammarOK s) := by
  unfold intervalGrammarOK
  infer_instance

/-- All-ASCII side condition: on this domain `parseInt?` is Python
`int()` exactly (beyond it Python also accepts Unicode digits and
whitespace). -/
def asciiOnly (s : String) : Prop :=
  s.data.all (fun c => c.toNat < 128) = true

instance (s : String) : Decidable (asciiOnly s) := by
  unfold asciiOnly
  infer_instance

/-- C8 (amended): a sampling-interval string outside the recognized
grammar is never rejected — the configuration always proceeds — but the
two scripts diverge on what they do with it.  `run_experiment.py` (for
ASCII strings) keeps the preset fallback of 15 seconds, with only a
printed warning, whenever the string is not an integer followed by an
`s` or `m` suffix.  `run_hpa_experiment.py` strips every trailing `s` or
`m` character, multiplies by 60 when the original string ends in `m`,
and falls back to 15 (silently, via `except: pass`) only when the
remaining core is not a parsable integer — so some out-of-grammar
strings are silently accepted with surprising steps: a bare `"5"` yields
step 5 and `"5sm"` yields 300. -/
theorem C8_theorem :
    (∀ s, asciiOnly s → ¬ intervalGrammarOK s →
        parseSamplingIntervalExperiment s = 15)
    ∧ (∀ s, asciiOnly s → parseInt? (rstripSM s) = none →
        parseSamplingIntervalHpa s = 15)
    ∧ (∀ (s : String) (n : Int), asciiOnly s → parseInt? (rstripSM s) = some n →
        parseSamplingIntervalHpa s =
          n * (if endsWithChar s 'm' then 60 else 1)) := by
  refine ⟨?_, ?_, ?_⟩
  · intro s _ h
    unfold parseSamplingIntervalExperiment
    by_cases hs : endsWithChar s 's' = true
    · have hnone : parseInt? s.data.dropLast = none := by
        cases hp : parseInt? s.data.dropLast with
        | none => rfl
        | some n => exact absurd (Or.inl ⟨hs, by simp [hp]⟩) h
      simp [hs, hnone]
    · by_cases hm : endsWithChar s 'm' = true
      · have hnone : parseInt? s.data.dropLast = none := by
          cases hp : parseInt? s.data.dropLast with
          | none => rfl
          | some n => exact absurd (Or.inr ⟨hm, by simp [hp]⟩) h
        simp [hs, hm, hnone]
      · simp [hs, hm]
  · intro s _ h
    unfold parseSamplingIntervalHpa
    rw [h]
  · intro s n _ h
    unfold parseSamplingIntervalHpa
    rw [h]

/-- C8 counterexample: the configuration is never rejected.  The
malformed string `"abc"` makes both scripts fall back to 15 seconds and
the export still proceeds and produces rows; worse, the out-of-grammar
strings `"5"` (no suffix) and `"5sm"` (double suffix) are silently
accepted by `run_hpa_experiment.py` with steps 5 and 300. -/
theorem C8_counterexample :
    parseSamplingIntervalExperiment "abc" = 15
    ∧ parseSamplingIntervalHpa "abc" = 15
    ∧ exportExperiment 0 0 "abc" [⟨[], [(0, "1")]⟩] [] =
        some [⟨0, some "1", []⟩]
    ∧ ¬ intervalGrammarOK "5"
    ∧ parseSamplingIntervalHpa "5" = 5
    ∧ ¬ intervalGrammarOK "5sm"
    ∧ parseSamplingIntervalHpa "5sm" = 300 := by decide

/-- C8 witness: the amended theorem applied at the concrete strings
`"xs"` (non-integer prefix: both scripts fall back to 15) and `"5sm"`
(accepted by the HPA parser as 5 times 60). -/
theorem C8_witness :
    parseSamplingIntervalExperiment "xs" = 15
    ∧ parseSamplingIntervalHpa "xs" = 15
    ∧ parseSamplingIntervalHpa "5sm" = 300 :=
  ⟨C8_theorem.1 "xs" (by decide) (by decide),
    C8_theorem.2.1 "xs" (by decide) (by decide),
    C8_theorem.2.2 "5sm" 5 (by decide) (by decide)⟩

/-! ### C3 -/

/-- C3: on every run of either driver the final times file contains
exactly one `START_TIME_UNIX` line and exactly one `END_TIME_UNIX` line,
the latter valued at the instant taken on entry of `finally`; and when a
phase raises, the trace is exactly the successful phases, the failing
phase, and then immediately the end write — the end instant is recorded
exactly once, at the failure instant. -/
theorem C3_end_written_once (ps : List Bool) (t0 tEnd : Int) :
    ((timesFileContent (runExperimentEvents ps t0 tEnd)).filter
        (fun e => e.1 = "START_TIME_UNIX")).length = 1
    ∧ (timesFileContent (runExperimentEvents ps t0 tEnd)).filter
        (fun e => e.1 = "END_TIME_UNIX") = [("END_TIME_UNIX", tEnd)]
    ∧ ((timesFileContent (runHpaEvents ps t0 tEnd)).filter
        (fun e => e.1 = "START_TIME_UNIX")).length = 1
    ∧ (timesFileContent (runHpaEvents ps t0 tEnd)).filter
        (fun e => e.1 = "END_TIME_UNIX") = [("END_TIME_UNIX", tEnd)]
    ∧ (false ∈ ps →
        ∃ k, ps[k]? = some false ∧ (∀ j, j < k → ps[j]? = some true) ∧
          runExperimentEvents ps t0 tEnd =
            .twrite .w (startEntries t0) ::
              (((List.range k).map (fun j => .phase j true)) ++
                [.phase k false, .twrite .a (endEntries tEnd)])) := by
  refine ⟨?_, ?_, ?_, ?_, ?_⟩
  · rw [timesFileContent_runExperiment]
    simp [startEntries, endEntries]
  · rw [timesFileContent_runExperiment]
    simp [startEntries, endEntries]
  · rw [timesFileContent_runHpa]
    simp [hpaEntries]
  · rw [timesFileContent_runHpa]
    simp [hpaEntries]
  · intro hfail
    obtain ⟨k, h1, h2, h3⟩ := phaseEvents_firstFail ps 0 hfail
    refine ⟨k, h1, h2, ?_⟩
    unfold runExperimentEvents
    rw [h3]
    simp

/-- C3 witness: the theorem applied to a run whose third of five phases
raises. -/
theorem C3_witness :
    ∃ k, ([true, true, false, true, true])[k]? = some false ∧
      (∀ j, j < k → ([true, true, false, true, true])[j]? = some true) ∧
      runExperimentEvents [true, true, false, true, true] 100 105 =
        .twrite .w (startEntries 100) ::
          (((List.range k).map (fun j => .phase j true)) ++
            [.phase k false, .twrite .a (endEntries 105)]) :=
  (C3_end_written_once [true, true, false, true, true] 100 105).2.2.2.2
    (by decide)

/-! ### C9 -/

/-- C9 (amended): in `run_experiment.py` the start instant is persisted
immediately on assignment, before any phase runs (the first trace event is
the start write), and every later write to the times file appends; in
`run_hpa_experiment.py`, by contrast, the record is written once, at
finalization after the phases — the single times-file write of its trace
is the final combined start/end write. -/
theorem C9_theorem (ps : List Bool) (t0 tEnd : Int) :
    (runExperimentEvents ps t0 tEnd).head? = some (.twrite .w (startEntries t0))
    ∧ (∀ m ls, REvent.twrite m ls ∈ (runExperimentEvents ps t0 tEnd).tail →
        m = .a)
    ∧ (runHpaEvents ps t0 tEnd).getLast? = some (.twrite .w (hpaEntries t0 tEnd))
    ∧ (∀ m ls, REvent.twrite m ls ∈ runHpaEvents ps t0 tEnd →
        m = .w ∧ ls = hpaEntries t0 tEnd) := by
  refine ⟨rfl, ?_, ?_, ?_⟩
  · intro m ls h
    simp only [runExperimentEvents, List.tail_cons, List.mem_append,
      List.mem_singleton] at h
    rcases h with h | h
    · obtain ⟨j, b, hab⟩ := phaseEvents_all_phase ps 0 _ h
      exact absurd hab (by simp)
    · cases h
      rfl
  · unfold runHpaEvents
    exact List.getLast?_concat _
  · intro m ls h
    simp only [runHpaEvents, List.mem_append, List.mem_singleton] at h
    rcases h with h | h
    · obtain ⟨j, b, hab⟩ := phaseEvents_all_phase ps 0 _ h
      exact absurd hab (by simp)
    · cases h
      exact ⟨rfl, rfl⟩

/-- C9 counterexample: in `run_hpa_experiment.py` with a single failing
phase, the first trace event is the phase itself — nothing was persisted
before a side-effecting phase ran — and the only times-file write is the
single final mode-`w` write carrying both instants. -/
theorem C9_counterexample :
    (runHpaEvents [false] 3 4).head? = some (.phase 0 false)
    ∧ (∀ e ∈ runHpaEvents [false] 3 4, isTWrite e = true →
        e = .twrite .w [("START_TIME_UNIX", 3), ("END_TIME_UNIX", 4)]) := by
  decide

/-- C9 witness: the amended theorem applied at a concrete one-phase run:
the basic driver's trace starts with the start write, and its tail-write
mode is append. -/
theorem C9_witness :
    (runExperimentEvents [false] 1 2).head? =
      some (.twrite .w (startEntries 1))
    ∧ WMode.a = WMode.a :=
  ⟨(C9_theorem [false] 1 2).1,
    (C9_theorem [false] 1 2).2.1 .a (endEntries 2) (by decide)⟩

/-! ### Specification of the Python `min(..., key=abs-distance)` fold -/

theorem foldl_minStep_spec (t : Int) :
    ∀ (l : List Int) (b : Int), l.Sorted (· ≤ ·) → (∀ x ∈ l, b ≤ x) →
      ∃ c, l.foldl (minStep t) (some b) = some c ∧
        (c = b ∨ c ∈ l) ∧ |c - t| ≤ |b - t| ∧
        (∀ x ∈ l, |c - t| ≤ |x - t|) ∧
        (|b - t| ≤ |c - t| → c = b) ∧
        (∀ x ∈ l, |x - t| = |c - t| → c ≤ x) := by
  intro l
  induction l with
  | nil =>
    intro b _ _
    exact ⟨b, rfl, Or.inl rfl, le_refl _, by simp, fun _ => rfl, by simp⟩
  | cons x xs ih =>
    intro b hsort hb
    obtain ⟨hx_le, hsx⟩ := List.sorted_cons.mp hsort
    have hbx : b ≤ x := hb x (by simp)
    rw [List.foldl_cons]
    by_cases hcmp : |x - t| < |b - t|
    · rw [show minStep t (some b) x = some x from by simp [minStep, hcmp]]
      obtain ⟨c, hc, hmem, hle, hall, heq, htie⟩ := ih x hsx hx_le
      refine ⟨c, hc, ?_, le_trans hle (le_of_lt hcmp), ?_, ?_, ?_⟩
      · rcases hmem with h | h
        · exact Or.inr (by simp [h])
        · exact Or.inr (by simp [h])
      · intro y hy
        rcases List.mem_cons.mp hy with h | h
        · exact h ▸ hle
        · exact hall y h
      · intro h
        exact absurd (lt_of_le_of_lt hle hcmp) (not_lt.mpr h)
      · intro y hy hyd
        rcases List.mem_cons.mp hy with h | h
        · subst h
          exact le_of_eq (heq (le_of_eq hyd))
        · exact htie y h hyd
    · rw [show minStep t (some b) x = some b from by simp [minStep, hcmp]]
      have hbxs : ∀ y ∈ xs, b ≤ y := fun y hy => le_trans hbx (hx_le y hy)
      obtain ⟨c, hc, hmem, hle, hall, heq, htie⟩ := ih b hsx hbxs
      refine ⟨c, hc, ?_, hle, ?_, heq, ?_⟩
      · rcases hmem with h | h
        · exact Or.inl h
        · exact Or.inr (by simp [h])
      · intro y hy
        rcases List.mem_cons.mp hy with h | h
        · exact h ▸ le_trans hle (not_lt.mp hcmp)
        · exact hall y h
      · intro y hy hyd
        rcases List.mem_cons.mp hy with h | h
        · subst h
          have hcb : c = b := heq ((not_lt.mp hcmp).trans (le_of_eq hyd))
          exact hcb ▸ hbx
        · exact htie y h hyd

theorem minByAbsDist_spec (l : List Int) (t c : Int)
    (hsort : l.Sorted (· ≤ ·)) (hc : minByAbsDist l t = some c) :
    c ∈ l ∧ (∀ x ∈ l, |c - t| ≤ |x - t|) ∧
      (∀ x ∈ l, |x - t| = |c - t| → c ≤ x) := by
  cases l with
  | nil => simp [minByAbsDist] at hc
  | cons x xs =>
    unfold minByAbsDist at hc
    rw [List.foldl_cons, show minStep t none x = some x from rfl] at hc
    obtain ⟨hx_le, hsx⟩ := List.sorted_cons.mp hsort
    obtain ⟨c', hc', hmem, hle, hall, heq, htie⟩ := foldl_minStep_spec t xs x hsx hx_le
    rw [hc'] at hc
    cases hc
    refine ⟨?_, ?_, ?_⟩
    · rcases hmem with h | h
      · simp [h]
      · simp [h]
    · intro y hy
      rcases List.mem_cons.mp hy with h | h
      · exact h ▸ hle
      · exact hall y h
    · intro y hy hyd
      rcases List.mem_cons.mp hy with h | h
      · subst h
        exact le_of_eq (heq (le_of_eq hyd))
      · exact htie y h hyd

theorem sortedKeys_sorted (d : TsDict) : (sortedKeys d).Sorted (· ≤ ·) :=
  List.sorted_insertionSort _ _

/-! ### C2 -/

/-- C2 (amended): for a grid point `t` and step `S`, the selected
timestamp `c` is the one of minimal absolute distance among the (sorted)
available timestamps, exact distance ties going to the earlier timestamp;
`run_experiment.py` then uses the record at `c` exactly when the distance
is strictly below `S` and substitutes the default otherwise;
`run_hpa_experiment.py` applies the same rule except that a nearest
timestamp equal to `0` is additionally treated as absent (a Python
truthiness check), regardless of its distance. -/
theorem C2_nearest_rule (d : TsDict) (t S c : Int)
    (hc : minByAbsDist (sortedKeys d) t = some c) :
    c ∈ sortedKeys d
    ∧ (∀ x ∈ sortedKeys d, |c - t| ≤ |x - t|)
    ∧ (∀ x ∈ sortedKeys d, |x - t| = |c - t| → c ≤ x)
    ∧ (|c - t| < S → dataForRow d t S = lookupTs d c)
    ∧ (S ≤ |c - t| → dataForRow d t S = [])
    ∧ (c ≠ 0 → |c - t| < S → dataForRowHpa d t S = lookupTs d c)
    ∧ (S ≤ |c - t| → dataForRowHpa d t S = [])
    ∧ (c = 0 → dataForRowHpa d t S = []) := by
  obtain ⟨h1, h2, h3⟩ := minByAbsDist_spec _ t c (sortedKeys_sorted d) hc
  refine ⟨h1, h2, h3, ?_, ?_, ?_, ?_, ?_⟩
  · intro h
    simp only [dataForRow, hc]
    rw [if_pos h]
  · intro h
    simp only [dataForRow, hc]
    rw [if_neg (not_lt.mpr h)]
  · intro h0 h
    simp only [dataForRowHpa, hc]
    rw [if_pos ⟨h0, h⟩]
  · intro h
    simp only [dataForRowHpa, hc]
    rw [if_neg (fun hcon : c ≠ 0 ∧ |c - t| < S => absurd hcon.2 (not_lt.mpr h))]
  · intro h0
    simp only [dataForRowHpa, hc]
    rw [if_neg (fun hcon : c ≠ 0 ∧ |c - t| < S => hcon.1 h0)]

/-- C2 counterexample: in the HPA aligner a sample at timestamp `0` at
distance `0 < S` from the grid point is nevertheless treated as absent
(`if closest_ts and ...` is falsy at `0`), so "the nearest value is used
if and only if its distance is strictly less than S" fails there. -/
theorem C2_counterexample :
    minByAbsDist (sortedKeys [(0, [("deployment_spec_replicas", "3")])]) 0 =
      some 0
    ∧ |(0 : Int) - 0| < 15
    ∧ dataForRowHpa [(0, [("deployment_spec_replicas", "3")])] 0 15 = [] := by
  decide

/-- C2 witness: the amended theorem applied at the spec's tie example —
samples at `100` and `104`, grid point `102`, step `5`: the earlier
timestamp `100` wins the exact tie and its record is used. -/
theorem C2_witness :
    dataForRow [(100, [("f", "1")]), (104, [("f", "2")])] 102 5 =
      lookupTs [(100, [("f", "1")]), (104, [("f", "2")])] 100 :=
  (C2_nearest_rule [(100, [("f", "1")]), (104, [("f", "2")])] 102 5 100
    (by decide)).2.2.2.1 (by decide)

/-! ### C1 -/

theorem getVal_map_self (g : String → String) :
    ∀ (cols : List String) (f : String), f ∈ cols →
      getVal (cols.map (fun nt => (nt, g nt))) f = some (g f) := by
  intro cols
  induction cols with
  | nil => simp
  | cons c rest ih =>
    intro f hf
    simp only [List.map_cons, getVal]
    by_cases h : c = f
    · subst h
      simp
    · rw [if_neg h]
      rcases List.mem_cons.mp hf with h' | h'
      · exact absurd h'.symm h
      · exact ih f h'

theorem mkCsvRow_nodeCols (d : TsDict) (cols : List String) (t step : Int) :
    (mkCsvRow d cols t step).nodeCols =
      cols.map (fun nt => (nt, (getVal (dataForRow d t step) nt).getD "0")) :=
  rfl

/-- C1 (amended): the aligner of `run_experiment.py` performs one merged
nearest-timestamp match over the keys of the single timestamp dict (the
union of all fields' sample timestamps): for every node column `f`, the
exported value at grid point `t` is the value of `f` in the record stored
at that one merged nearest timestamp when its distance is below `S` (the
default `'0'` when the record lacks `f` or the distance is too large) —
it is not a per-field nearest match over the field's own sample keys, so
one field's samples can determine whether another field's value is
observed or defaulted. -/
theorem C1_merged_nearest (d : TsDict) (cols : List String) (t S : Int)
    (f : String) (hf : f ∈ cols) :
    (minByAbsDist (sortedKeys d) t = none →
        getVal (mkCsvRow d cols t S).nodeCols f = some "0")
    ∧ (∀ c, minByAbsDist (sortedKeys d) t = some c →
        getVal (mkCsvRow d cols t S).nodeCols f =
          some (if |c - t| < S then (getVal (lookupTs d c) f).getD "0"
                else "0")) := by
  constructor
  · intro h
    rw [mkCsvRow_nodeCols,
      getVal_map_self (fun nt => (getVal (dataForRow d t S) nt).getD "0") cols f hf]
    simp only [dataForRow, h]
    rfl
  · intro c hc
    rw [mkCsvRow_nodeCols,
      getVal_map_self (fun nt => (getVal (dataForRow d t S) nt).getD "0") cols f hf]
    simp only [dataForRow, hc]
    by_cases hlt : |c - t| < S
    · rw [if_pos hlt, if_pos hlt]
    · rw [if_neg hlt, if_neg hlt]
      rfl

/-- C1 counterexample: field `b` has the identical node series (one sample
at timestamp `90`, distance `10 < 15` from the grid point `100`) in both
runs, yet its exported value flips from the observation `"3"` to the
default `"0"` purely because the replicas field contributes a sample at
timestamp `100`: one field's samples decide whether another field's value
is taken from an observation. -/
theorem C1_counterexample :
    exportExperiment 100 100 "15s" [⟨[("x", "y")], [(100, "7")]⟩]
        [⟨[(nodeTypeLabelName, "b")], [(90, "3")]⟩] =
      some [⟨100, some "7", [("b", "0")]⟩]
    ∧ exportExperiment 100 100 "15s" []
        [⟨[(nodeTypeLabelName, "b")], [(90, "3")]⟩] =
      some [⟨100, none, [("b", "3")]⟩] := by
  decide

/-- C1 witness: the amended theorem applied at a dict whose merged nearest
timestamp to the grid point `100` is `100` (a replicas sample), so the
node column `b`, sampled only at `90`, reads the record at `100` and falls
back to the default. -/
theorem C1_witness :
    getVal (mkCsvRow [(100, [("deployment_spec_replicas", "7")]),
        (90, [("b", "3")])] ["b"] 100 15).nodeCols "b" =
      some (if |(100 : Int) - 100| < 15 then
          (getVal (lookupTs [(100, [("deployment_spec_replicas", "7")]),
            (90, [("b", "3")])] 100) "b").getD "0"
        else "0") :=
  (C1_merged_nearest [(100, [("deployment_spec_replicas", "7")]),
      (90, [("b", "3")])] ["b"] 100 15 "b" (by decide)).2 100 (by decide)

/-! ### C6 -/

/-- C6 (amended): the missing-value default is not uniform across the two
exporters' columns: `run_hpa_experiment.py` renders every declared column
(fixed and node-class alike) as `'0'` when the aligned record lacks it,
while `run_experiment.py` does so only for the node-class columns and
leaves its fixed `deployment_spec_replicas` column as `None` (an empty
CSV cell) when missing. -/
theorem C6_default_policy :
    (∀ (tailFields : List String) (m : FieldMap) (f : String),
        f ∈ tailFields →
        getVal (hpaRowFields tailFields m) f = some ((getVal m f).getD "0"))
    ∧ (∀ (d : TsDict) (cols : List String) (t step : Int) (f : String),
        f ∈ cols →
        getVal (mkCsvRow d cols t step).nodeCols f =
          some ((getVal (dataForRow d t step) f).getD "0"))
    ∧ (∀ (d : TsDict) (cols : List String) (t step : Int),
        (mkCsvRow d cols t step).spec_replicas =
          getVal (dataForRow d t step) "deployment_spec_replicas") := by
  refine ⟨?_, ?_, ?_⟩
  · intro tailFields m f hf
    exact getVal_map_self (fun f => (getVal m f).getD "0") tailFields f hf
  · intro d cols t step f hf
    exact getVal_map_self (fun f => (getVal (dataForRow d t step) f).getD "0")
      cols f hf
  · intro d cols t step
    rfl

/-- C6 counterexample: one exported row of `run_experiment.py` in which
the missing fixed metric is rendered as `none` (an empty cell) while the
missing node column of the same row is rendered as the default `"0"` —
the claimed uniform `'0'` default does not hold. -/
theorem C6_counterexample :
    exportExperiment 200 200 "10s" [⟨[], [(185, "4")]⟩]
        [⟨[(nodeTypeLabelName, "a")], [(185, "1")]⟩] =
      some [⟨200, none, [("a", "0")]⟩] := by
  decide

/-- C6 witness: the amended theorem applied at concrete empty aligned
records: the HPA row renders the missing field as `"0"`, and the basic
exporter's node column likewise. -/
theorem C6_witness :
    getVal (hpaRowFields ["deployment_spec_replicas"] [])
        "deployment_spec_replicas" = some "0"
    ∧ getVal (mkCsvRow [] ["a"] 0 15).nodeCols "a" = some "0" :=
  ⟨C6_default_policy.1 ["deployment_spec_replicas"] [] "deployment_spec_replicas"
      (by decide),
    C6_default_policy.2.1 [] ["a"] 0 15 "a" (by decide)⟩

/-! ### C5 -/

theorem mkCsvRow_timestamp (d : TsDict) (cols : List String) (t step : Int) :
    (mkCsvRow d cols t step).timestamp_unix = t := rfl

/-- C5 (amended): when at least one sample was returned (the merged dict
is nonempty) and the parsed step is positive, `run_experiment.py` exports
exactly one row per timestamp of `range(floor(start), floor(end) + 1, S)`;
but when the collection of returned series is empty the export does not
proceed at all — no rows are produced, not even a bare grid with the
fixed columns. -/
theorem C5_theorem :
    (∀ (qs qe : Int) (si : String) (repD nodesD : List PromSeries),
        buildDictExperiment repD nodesD ≠ [] →
        0 < parseSamplingIntervalExperiment si →
        ∃ rows, exportExperiment qs qe si repD nodesD = some rows ∧
          rows.map CsvRow.timestamp_unix =
            pyRange qs (qe + 1) (parseSamplingIntervalExperiment si))
    ∧ (∀ (qs qe : Int) (si : String), exportExperiment qs qe si [] [] = none) := by
  constructor
  · intro qs qe si repD nodesD hd hstep
    simp only [exportExperiment]
    rw [if_neg hd, if_pos hstep]
    refine ⟨_, rfl, ?_⟩
    rw [List.map_map]
    have hcomp : (CsvRow.timestamp_unix ∘ fun t =>
        mkCsvRow (buildDictExperiment repD nodesD) (experimentCols nodesD) t
          (parseSamplingIntervalExperiment si)) = id := by
      funext t
      rfl
    rw [hcomp, List.map_id]
  · intro qs qe si
    rfl

/-- C5 counterexample: with an empty series collection and the positive
step `5`, the grid `range(1000, 1011, 5)` has three timestamps, yet the
exporter produces no output at all instead of three fixed-column rows. -/
theorem C5_counterexample :
    exportExperiment 1000 1010 "5s" [] [] = none
    ∧ pyRange 1000 1011 5 = [1000, 1005, 1010] := by
  decide

/-- C5 witness: the amended theorem applied at a window `[1000, 1030]`
with step `"5s"` and one replicas sample: the exported row timestamps are
exactly the grid. -/
theorem C5_witness :
    ∃ rows, exportExperiment 1000 1030 "5s" [⟨[], [(1000, "2")]⟩] [] =
        some rows ∧
      rows.map CsvRow.timestamp_unix =
        pyRange 1000 (1030 + 1) (parseSamplingIntervalExperiment "5s") :=
  C5_theorem.1 1000 1030 "5s" [⟨[], [(1000, "2")]⟩] [] (by decide) (by decide)

/-! ### C7 -/

theorem charListLeb_total :
    ∀ as bs : List Char, charListLeb as bs = true ∨ charListLeb bs as = true := by
  intro as
  induction as with
  | nil => intro bs; left; rfl
  | cons a as ih =>
    intro bs
    cases bs with
    | nil => right; rfl
    | cons b bs =>
      by_cases h1 : a.toNat < b.toNat
      · left
        simp [charListLeb, h1]
      · by_cases h2 : b.toNat < a.toNat
        · right
          simp [charListLeb, h2]
        · rcases ih bs with h | h
          · left
            simp [charListLeb, h1, h2, h]
          · right
            simp [charListLeb, h1, h2, h]

theorem charListLeb_trans :
    ∀ as bs cs : List Char, charListLeb as bs = true →
      charListLeb bs cs = true → charListLeb as cs = true := by
  intro as
  induction as with
  | nil => intros; rfl
  | cons a as ih =>
    intro bs cs h1 h2
    cases bs with
    | nil => simp [charListLeb] at h1
    | cons b bs =>
      cases cs with
      | nil => simp [charListLeb] at h2
      | cons c cs =>
        simp only [charListLeb] at h1 h2 ⊢
        by_cases hab : a.toNat < b.toNat
        · by_cases hbc : b.toNat < c.toNat
          · rw [if_pos (by omega : a.toNat < c.toNat)]
          · by_cases hcb : c.toNat < b.toNat
            · rw [if_neg hbc, if_pos hcb] at h2
              exact absurd h2 (by simp)
            · rw [if_pos (by omega : a.toNat < c.toNat)]
        · by_cases hba : b.toNat < a.toNat
          · rw [if_neg hab, if_pos hba] at h1
            exact absurd h1 (by simp)
          · rw [if_neg hab, if_neg hba] at h1
            by_cases hbc : b.toNat < c.toNat
            · rw [if_pos (by omega : a.toNat < c.toNat)]
            · by_cases hcb : c.toNat < b.toNat
              · rw [if_neg hbc, if_pos hcb] at h2
                exact absurd h2 (by simp)
              · rw [if_neg hbc, if_neg hcb] at h2
                rw [if_neg (by omega : ¬ a.toNat < c.toNat),
                  if_neg (by omega : ¬ c.toNat < a.toNat)]
                exact ih bs cs h1 h2

instance : IsTotal String strLe :=
  ⟨fun a b => charListLeb_total a.data b.data⟩

instance : IsTrans String strLe :=
  ⟨fun a b c h1 h2 => charListLeb_trans a.data b.data c.data h1 h2⟩

theorem mem_insertIfAbsent (l : List String) (x y : String) :
    y ∈ insertIfAbsent l x ↔ y ∈ l ∨ y = x := by
  unfold insertIfAbsent
  split_ifs with h
  · constructor
    · exact Or.inl
    · rintro (h' | rfl)
      · exact h'
      · exact h
  · simp

theorem nodup_insertIfAbsent (l : List String) (x : String) (h : l.Nodup) :
    (insertIfAbsent l x).Nodup := by
  unfold insertIfAbsent
  split_ifs with hx
  · exact h
  · simp [List.nodup_append, h, hx]

theorem mem_foldl_addNodeType :
    ∀ (l : List PromSeries) (acc : List String) (x : String),
      x ∈ l.foldl addNodeType acc ↔
        x ∈ acc ∨ ∃ s ∈ l, nodeTypeOfSeries s = some x := by
  intro l
  induction l with
  | nil => intro acc x; simp
  | cons s rest ih =>
    intro acc x
    rw [List.foldl_cons, ih]
    cases h : nodeTypeOfSeries s with
    | none =>
      simp only [addNodeType, h]
      constructor
      · rintro (hx | ⟨s', hs', hnt⟩)
        · exact Or.inl hx
        · exact Or.inr ⟨s', List.mem_cons_of_mem _ hs', hnt⟩
      · rintro (hx | ⟨s', hs', hnt⟩)
        · exact Or.inl hx
        · rcases List.mem_cons.mp hs' with rfl | hs''
          · rw [h] at hnt
            cases hnt
          · exact Or.inr ⟨s', hs'', hnt⟩
    | some nt =>
      simp only [addNodeType, h, mem_insertIfAbsent]
      constructor
      · rintro ((hx | rfl) | ⟨s', hs', hnt⟩)
        · exact Or.inl hx
        · exact Or.inr ⟨s, List.mem_cons_self _ _, h⟩
        · exact Or.inr ⟨s', List.mem_cons_of_mem _ hs', hnt⟩
      · rintro (hx | ⟨s', hs', hnt⟩)
        · exact Or.inl (Or.inl hx)
        · rcases List.mem_cons.mp hs' with rfl | hs''
          · rw [h] at hnt
            exact Or.inl (Or.inr (by injection hnt with h'; exact h'.symm))
          · exact Or.inr ⟨s', hs'', hnt⟩

theorem nodup_foldl_addNodeType :
    ∀ (l : List PromSeries) (acc : List String), acc.Nodup →
      (l.foldl addNodeType acc).Nodup := by
  intro l
  induction l with
  | nil => intro acc h; exact h
  | cons s rest ih =>
    intro acc h
    rw [List.foldl_cons]
    refine ih _ ?_
    cases hnt : nodeTypeOfSeries s with
    | none => simpa [addNodeType, hnt] using h
    | some nt => simpa [addNodeType, hnt] using nodup_insertIfAbsent acc nt h

/-- C7 (amended): in `run_experiment.py` the discovered columns are
exactly the code-point-sorted duplicate-free set of node-class label
values observed across the node-inventory series, where a series is
skipped — contributing no column and no samples — exactly when its label
is missing or its value is the empty string (Python falsiness). In
`run_hpa_experiment.py`, by contrast, a series lacking the label is not
skipped: it is attributed to the synthetic column `"unknown_node"`,
contributing that column and its values. -/
theorem C7_column_discovery (nodesData : List PromSeries) :
    List.Sorted strLe (experimentCols nodesData)
    ∧ (experimentCols nodesData).Nodup
    ∧ (∀ x, x ∈ experimentCols nodesData ↔
        ∃ s ∈ nodesData, nodeTypeOfSeries s = some x)
    ∧ (∀ (d : TsDict) (s : PromSeries),
        nodeTypeOfSeries s = none → applyNodeSeries d s = d) := by
  refine ⟨?_, ?_, ?_, ?_⟩
  · exact List.sorted_insertionSort strLe _
  · exact ((List.perm_insertionSort strLe _).nodup_iff).mpr
      (nodup_foldl_addNodeType nodesData [] (by simp))
  · intro x
    unfold experimentCols experimentNodeTypes
    rw [(List.perm_insertionSort strLe
      (nodesData.foldl addNodeType [])).mem_iff]
    rw [mem_foldl_addNodeType]
    simp
  · intro d s h
    simp [applyNodeSeries, h]

/-- C7 counterexample: in `run_hpa_experiment.py` a node-inventory series
whose label set lacks the configured key is not skipped: it produces the
column `"unknown_node"` and contributes its sample values under it. -/
theorem C7_counterexample :
    hpaNodeTypes [⟨[], [(5, "1")]⟩] = ["unknown_node"]
    ∧ buildDictHpa [] [] [] [⟨[], [(5, "1")]⟩] =
        [(5, [("unknown_node", "1")])] := by
  decide

/-- C7 witness: the spec's duplicate-label example — series labelled
`a, b, a` yield exactly the columns `["a", "b"]` — together with the
amended theorem applied to a concrete label-less series, which leaves the
dict untouched. -/
theorem C7_witness :
    experimentCols [⟨[(nodeTypeLabelName, "a")], []⟩,
        ⟨[(nodeTypeLabelName, "b")], []⟩,
        ⟨[(nodeTypeLabelName, "a")], []⟩] = ["a", "b"]
    ∧ applyNodeSeries [(5, [("x", "1")])] ⟨[], [(7, "2")]⟩ =
        [(5, [("x", "1")])] :=
  ⟨by decide,
    (C7_column_discovery []).2.2.2 [(5, [("x", "1")])] ⟨[], [(7, "2")]⟩
      (by decide)⟩

/-! ### C4 -/

theorem scaleUp_eq (maxR step : Int) (hmax : 2 ≤ maxR) (hstep : 1 ≤ step) :
    scaleUpTargets maxR step =
      (List.range (((maxR - 2) / step).toNat + 1)).map
        (fun i : Nat => 2 + (i : Int) * step) := by
  unfold scaleUpTargets pyRange pyRangeLen
  rw [if_pos (show (0 : Int) < step by omega),
    if_pos (show (2 : Int) < maxR + 1 by omega)]
  have h2 : ((maxR + 1 - 2 - 1) / step).toNat = ((maxR - 2) / step).toNat := by
    have h1 : maxR + 1 - 2 - 1 = maxR - 2 := by ring
    rw [h1]
  rw [h2]

theorem scaleDown_eq (maxR step : Int) (hstep : 1 ≤ step)
    (hcase : step ≤ maxR - 2) :
    scaleDownTargets maxR step =
      (List.range (((maxR - 2) / step - 1).toNat + 1)).map
        (fun i : Nat => (maxR - step) + (i : Int) * (-step)) := by
  unfold scaleDownTargets pyRange pyRangeLen
  rw [if_neg (show ¬ (0 : Int) < -step by omega),
    if_pos (show -step < 0 by omega), neg_neg,
    if_pos (show (1 : Int) < maxR - step by omega)]
  have h2 : ((maxR - step - 1 - 1) / step).toNat =
      ((maxR - 2) / step - 1).toNat := by
    have h1 : maxR - step - 1 - 1 = (maxR - 2) + (-1) * step := by ring
    rw [h1, Int.add_mul_ediv_right _ _ (show step ≠ 0 by omega)]
    omega
  rw [h2]

theorem scaleDown_empty (maxR step : Int) (hstep : 1 ≤ step)
    (hcase : maxR - 2 < step) :
    scaleDownTargets maxR step = [] := by
  unfold scaleDownTargets pyRange pyRangeLen
  rw [if_neg (show ¬ (0 : Int) < -step by omega),
    if_pos (show -step < 0 by omega), neg_neg,
    if_neg (show ¬ (1 : Int) < maxR - step by omega)]
  rfl

/-- C4 (amended): for well-formed `(min = 2, max, step)` the issued plan
starts at `2`, ascends strictly by `step` up to its peak — the largest
value of the form `2 + k·step` that is `≤ max`, namely
`max - ((max - 2) % step)`; the peak equals `max` exactly when `step`
divides `max - 2`, and is otherwise short of `max` (the final ascending
step is omitted, not truncated to `max`); the plan then descends strictly
from `max - step`, ending at `2 + ((max - 2) % step)` (which is `2` only
when `step` divides `max - 2`; when `step > max - 2` the plan is just
`[2]`). No two consecutive issued targets are identical. -/
theorem C4_scaling_plan (maxR step : Int) (hmax : 2 ≤ maxR) (hstep : 1 ≤ step) :
    (scalingPlan maxR step).head? = some 2
    ∧ List.Chain' (· < ·) (scaleUpTargets maxR step)
    ∧ List.Chain' (· > ·) (scaleDownTargets maxR step)
    ∧ List.Chain' (· ≠ ·) (scalingPlan maxR step)
    ∧ (∀ x ∈ scalingPlan maxR step, 2 ≤ x ∧ x ≤ maxR - (maxR - 2) % step)
    ∧ (maxR - (maxR - 2) % step) ∈ scalingPlan maxR step
    ∧ ((maxR : Int) ∈ scalingPlan maxR step ↔ (maxR - 2) % step = 0)
    ∧ (scalingPlan maxR step).getLast? =
        some (if step ≤ maxR - 2 then 2 + (maxR - 2) % step else 2) := by
  have hstep0 : (0 : Int) < step := by omega
  have hr0 : 0 ≤ (maxR - 2) % step := Int.emod_nonneg _ (by omega)
  have hrlt : (maxR - 2) % step < step := Int.emod_lt_of_pos _ hstep0
  have hdm : step * ((maxR - 2) / step) + (maxR - 2) % step = maxR - 2 :=
    Int.ediv_add_emod _ _
  have hdm' : ((maxR - 2) / step) * step + (maxR - 2) % step = maxR - 2 := by
    rw [mul_comm]
    exact hdm
  have hA0 : 0 ≤ (maxR - 2) / step := Int.ediv_nonneg (by omega) (by omega)
  have hup := scaleUp_eq maxR step hmax hstep
  have hpeak : 2 + ((((maxR - 2) / step).toNat : Int)) * step =
      maxR - (maxR - 2) % step := by
    rw [Int.toNat_of_nonneg hA0]
    linarith [hdm']
  have hupLast : (scaleUpTargets maxR step).getLast? =
      some (2 + ((((maxR - 2) / step).toNat : Int)) * step) := by
    rw [hup, List.range_succ, List.map_append, List.map_cons, List.map_nil]
    exact List.getLast?_concat _
  have hupMem : ∀ x, x ∈ scaleUpTargets maxR step ↔
      ∃ i : ℕ, (i : Int) ≤ (maxR - 2) / step ∧ x = 2 + (i : Int) * step := by
    intro x
    rw [hup]
    simp only [List.mem_map, List.mem_range]
    constructor
    · rintro ⟨i, hi, rfl⟩
      exact ⟨i, by omega, rfl⟩
    · rintro ⟨i, hi, rfl⟩
      exact ⟨i, by omega, rfl⟩
  have hupChain : List.Chain' (· < ·) (scaleUpTargets maxR step) := by
    rw [hup]
    apply List.Pairwise.chain'
    exact List.Pairwise.map _
      (fun a b hab =>
        add_lt_add_left
          (mul_lt_mul_of_pos_right (by exact_mod_cast hab) hstep0) 2)
      (List.pairwise_lt_range _)
  have head_conj : (scalingPlan maxR step).head? = some 2 := by
    unfold scalingPlan
    rw [hup, List.range_succ_eq_map, List.map_cons, List.cons_append]
    simp
  have up_bound : ∀ x ∈ scaleUpTargets maxR step,
      2 ≤ x ∧ x ≤ maxR - (maxR - 2) % step := by
    intro x hx
    rw [hupMem] at hx
    obtain ⟨i, hi, rfl⟩ := hx
    have hi0 : (0 : Int) ≤ (i : Int) * step :=
      mul_nonneg (Int.natCast_nonneg i) (by omega)
    have h2 : (i : Int) * step ≤ ((maxR - 2) / step) * step :=
      mul_le_mul_of_nonneg_right hi (by omega)
    constructor
    · linarith
    · linarith
  have peak_mem : (maxR - (maxR - 2) % step) ∈ scalingPlan maxR step := by
    unfold scalingPlan
    apply List.mem_append_left
    rw [hupMem]
    refine ⟨((maxR - 2) / step).toNat, by omega, ?_⟩
    rw [hpeak]
  have up_max : ∀ i : ℕ, (i : Int) ≤ (maxR - 2) / step →
      (2 : Int) + (i : Int) * step = maxR → (maxR - 2) % step = 0 := by
    intro i hi heq
    have h2 : (i : Int) * step ≤ ((maxR - 2) / step) * step :=
      mul_le_mul_of_nonneg_right hi (by omega)
    linarith
  by_cases hcase : step ≤ maxR - 2
  · -- the descending leg is nonempty
    have hA1 : 1 ≤ (maxR - 2) / step := by
      by_contra hcon
      have hA00 : (maxR - 2) / step = 0 := by omega
      rw [hA00, mul_zero, zero_add] at hdm
      omega
    have hdown := scaleDown_eq maxR step hstep hcase
    have hdownHead : (scaleDownTargets maxR step).head? = some (maxR - step) := by
      rw [hdown, List.range_succ_eq_map, List.map_cons]
      simp
    have hcastA1 : ((((maxR - 2) / step - 1).toNat : Int)) =
        (maxR - 2) / step - 1 := Int.toNat_of_nonneg (by omega)
    have hdownLastVal : (maxR - step) +
        ((((maxR - 2) / step - 1).toNat : Int)) * (-step) =
        2 + (maxR - 2) % step := by
      rw [hcastA1]
      linear_combination -hdm'
    have hdownMem : ∀ x, x ∈ scaleDownTargets maxR step ↔
        ∃ i : ℕ, (i : Int) ≤ (maxR - 2) / step - 1 ∧
          x = (maxR - step) + (i : Int) * (-step) := by
      intro x
      rw [hdown]
      simp only [List.mem_map, List.mem_range]
      constructor
      · rintro ⟨i, hi, rfl⟩
        exact ⟨i, by omega, rfl⟩
      · rintro ⟨i, hi, rfl⟩
        exact ⟨i, by omega, rfl⟩
    have hdownChain : List.Chain' (· > ·) (scaleDownTargets maxR step) := by
      rw [hdown]
      apply List.Pairwise.chain'
      refine List.Pairwise.map _ (fun a b hab => ?_) (List.pairwise_lt_range _)
      have hcast : (a : Int) < (b : Int) := by exact_mod_cast hab
      have hmul : (b : Int) * (-step) < (a : Int) * (-step) := by nlinarith
      exact add_lt_add_left hmul _
    have down_bound : ∀ x ∈ scaleDownTargets maxR step,
        2 ≤ x ∧ x ≤ maxR - (maxR - 2) % step := by
      intro x hx
      rw [hdownMem] at hx
      obtain ⟨i, hi, rfl⟩ := hx
      have hi0 : (0 : Int) ≤ (i : Int) * step :=
        mul_nonneg (Int.natCast_nonneg i) (by omega)
      have h2 : (i : Int) * step ≤ ((maxR - 2) / step - 1) * step :=
        mul_le_mul_of_nonneg_right hi (by omega)
      have hexp : ((maxR - 2) / step - 1) * step =
          ((maxR - 2) / step) * step - step := by ring
      rw [hexp] at h2
      have hxval : (maxR - step) + (i : Int) * (-step) =
          maxR - step - (i : Int) * step := by ring
      rw [hxval]
      constructor
      · linarith
      · linarith
    refine ⟨head_conj, hupChain, hdownChain, ?_, ?_, peak_mem, ?_, ?_⟩
    · -- no two consecutive targets identical
      unfold scalingPlan
      rw [List.chain'_append]
      refine ⟨hupChain.imp (fun a b hab => ne_of_lt hab),
        hdownChain.imp (fun a b hab => ne_of_gt hab), ?_⟩
      intro x hx y hy
      rw [hupLast, Option.mem_def, Option.some.injEq] at hx
      rw [hdownHead, Option.mem_def, Option.some.injEq] at hy
      subst hx
      subst hy
      rw [hpeak]
      omega
    · intro x hx
      rcases List.mem_append.mp hx with h | h
      · exact up_bound x h
      · exact down_bound x h
    · constructor
      · intro hmem
        rcases List.mem_append.mp hmem with h | h
        · rw [hupMem] at h
          obtain ⟨i, hi, heq⟩ := h
          exact up_max i hi heq.symm
        · rw [hdownMem] at h
          obtain ⟨i, hi, heq⟩ := h
          exfalso
          have hi0 : (0 : Int) ≤ (i : Int) * step :=
            mul_nonneg (Int.natCast_nonneg i) (by omega)
          have heq2 : (maxR - step) + (i : Int) * (-step) =
              maxR - step - (i : Int) * step := by ring
          rw [heq2] at heq
          linarith
      · intro hr
        have pm := peak_mem
        rw [hr, sub_zero] at pm
        exact pm
    · unfold scalingPlan
      rw [if_pos hcase, hdown, List.range_succ, List.map_append, List.map_cons,
        List.map_nil, ← List.append_assoc, List.getLast?_concat, hdownLastVal]
  · -- the descending leg is empty
    have hde := scaleDown_empty maxR step hstep (by omega)
    have hA00 : (maxR - 2) / step = 0 :=
      Int.ediv_eq_zero_of_lt (by omega) (by omega)
    refine ⟨head_conj, hupChain, ?_, ?_, ?_, peak_mem, ?_, ?_⟩
    · rw [hde]
      exact List.chain'_nil
    · unfold scalingPlan
      rw [hde, List.append_nil]
      exact hupChain.imp (fun a b hab => ne_of_lt hab)
    · intro x hx
      unfold scalingPlan at hx
      rw [hde, List.append_nil] at hx
      exact up_bound x hx
    · constructor
      · intro hmem
        unfold scalingPlan at hmem
        rw [hde, List.append_nil] at hmem
        rw [hupMem] at hmem
        obtain ⟨i, hi, heq⟩ := hmem
        exact up_max i hi heq.symm
      · intro hr
        have pm := peak_mem
        rw [hr, sub_zero] at pm
        exact pm
    · unfold scalingPlan
      rw [if_neg hcase, hde, List.append_nil, hup, hA00]
      simp [List.range_succ]

/-- C4 counterexample: with the well-formed configuration
`max = 5, step = 2` the issued plan is `[2, 4, 3]`: the peak is `4`, not
`max = 5` (no truncation of the final ascending step to `max` happens),
and the plan ends at `3`, not at `2`. -/
theorem C4_counterexample :
    scalingPlan 5 2 = [2, 4, 3]
    ∧ (5 : Int) ∉ scalingPlan 5 2
    ∧ (scalingPlan 5 2).getLast? ≠ some 2 := by
  decide

/-- C4 witness: the amended theorem applied at `max = 10, step = 3`
(plan `[2, 5, 8, 7, 4]`). -/
theorem C4_witness :
    (scalingPlan 10 3).head? = some 2
    ∧ List.Chain' (· < ·) (scaleUpTargets 10 3)
    ∧ List.Chain' (· > ·) (scaleDownTargets 10 3)
    ∧ List.Chain' (· ≠ ·) (scalingPlan 10 3)
    ∧ (∀ x ∈ scalingPlan 10 3, 2 ≤ x ∧ x ≤ 10 - (10 - 2) % 3)
    ∧ ((10 : Int) - (10 - 2) % 3) ∈ scalingPlan 10 3
    ∧ ((10 : Int) ∈ scalingPlan 10 3 ↔ ((10 : Int) - 2) % 3 = 0)
    ∧ (scalingPlan 10 3).getLast? =
        some (if (3 : Int) ≤ 10 - 2 then 2 + (10 - 2) % 3 else 2) :=
  C4_scaling_plan 10 3 (by norm_num) (by norm_num)

end Autopilot
